import Mathlib

/-!
Verification of the notebook execution core of `src/backend/notebooks.py`
(with `src/v2main.py` realizing the same operations).

Pure Python helpers are translated directly; where a claim depends on the
external execution-session collaborator (`nbclient.NotebookClient`), that
collaborator is modelled from the specification's boundary contract and the
definition's doc comment says so.

Paths are modelled as lists of components, each component a list of
characters; strings enter at the boundary through `String.toList`.
-/

instance {ε α : Type} [DecidableEq ε] [DecidableEq α] :
    DecidableEq (Except ε α) := fun x y =>
  match x, y with
  | .ok a, .ok b =>
    decidable_of_iff (a = b) (by constructor
                                 · intro h; rw [h]
                                 · intro h; injection h)
  | .error a, .error b =>
    decidable_of_iff (a = b) (by constructor
                                 · intro h; rw [h]
                                 · intro h; injection h)
  | .ok _, .error _ => isFalse (fun h => by injection h)
  | .error _, .ok _ => isFalse (fun h => by injection h)

/-- Characters stripped by Python's `str.strip()` with no argument. -/
def pyWS (c : Char) : Bool :=
  c = ' ' || c = '\t' || c = '\n' || c = '\r' || c = '\x0b' || c = '\x0c'

/-- Python `str.strip()` on a list of characters. -/
def pyStripList (l : List Char) : List Char :=
  ((l.dropWhile pyWS).reverse.dropWhile pyWS).reverse

/-- Python `str.strip()` on a string. -/
def pyStrip (s : String) : String :=
  String.mk (pyStripList s.toList)

/-- Shorthand for `String.toList`, used to write concrete paths. -/
def chars (s : String) : List Char :=
  s.toList

/-- The characters of the fixed notebook extension `.ipynb`. -/
def ipynbSuffix : List Char :=
  chars ".ipynb"

/-- Splits a character list on a separator character; mirrors how `pathlib`
breaks a path string into components (`str.split` semantics: a list of `n`
separators yields `n+1` segments, empty segments included). -/
def splitOnChar (sep : Char) : List Char → List (List Char)
  | [] => [[]]
  | c :: cs =>
    match splitOnChar sep cs with
    | [] => [[]]
    | g :: gs => if c = sep then [] :: g :: gs else (c :: g) :: gs

/-- Joins components with `/`, the inverse of `splitOnChar`; `str.join`
semantics. -/
def joinSlash : List (List Char) → List Char
  | [] => []
  | [g] => g
  | g :: g' :: gs => g ++ '/' :: joinSlash (g' :: gs)

/-- One step of lexical path resolution: empty and `.` components vanish,
`..` removes the last component kept so far (and is a no-op at the
filesystem root), anything else is appended.  This is what
`(NOTEBOOK_DIR / rel_path).resolve()` does to the joined components. -/
def resolveStep (acc : List (List Char)) (c : List Char) : List (List Char) :=
  if c = [] ∨ c = ['.'] then acc
  else if c = ['.', '.'] then acc.dropLast
  else acc ++ [c]

/-- Lexical resolution of an absolute path given as components. -/
def resolveComps (l : List (List Char)) : List (List Char) :=
  l.foldl resolveStep []

/-- The pure normalization performed by `_safe_nb_path` on the user string:
`(rel_path or "").strip().lstrip("/").replace("\\", "/")`, then append
`.ipynb` when the extension is missing. -/
def normRel (l : List Char) : List Char :=
  let a := pyStripList l
  let b := a.dropWhile (fun c => c = '/')
  let d := b.map (fun c => if c = '\\' then '/' else c)
  if ipynbSuffix.isSuffixOf d then d else d ++ ipynbSuffix

/-- `_safe_nb_path` from `src/backend/notebooks.py` (the copy in
`src/v2main.py` is identical): normalize the relative path, resolve it
against the configured root, and reject the result unless the root is one of
its proper ancestors (`NOTEBOOK_DIR in p.parents`) or the result is the root
itself.  The root is given pre-resolved, as `NOTEBOOK_DIR` is in the source.
`HTTPException(400, "Invalid notebook path")` is modelled as the `error`
case. -/
def _safe_nb_path (root : List (List Char)) (rel : List Char) :
    Except String (List (List Char)) :=
  let comps := splitOnChar '/' (normRel rel)
  let p := resolveComps (root ++ comps)
  if ¬ (root <+: p ∧ root ≠ p) ∧ p ≠ root then .error "Invalid notebook path"
  else .ok p

/-- The resolved candidate path `_safe_nb_path` checks against the root. -/
def resolvedCandidate (root : List (List Char)) (rel : List Char) :
    List (List Char) :=
  resolveComps (root ++ splitOnChar '/' (normRel rel))

/-- A well-formed path component: nonempty, not a dot component, and free of
separators.  The components of a pre-resolved root directory satisfy
this. -/
def cleanComp (c : List Char) : Prop :=
  c ≠ [] ∧ c ≠ ['.'] ∧ c ≠ ['.', '.'] ∧ '/' ∉ c

instance (c : List Char) : Decidable (cleanComp c) := by
  unfold cleanComp; infer_instance

/-- The `str` form of an absolute path, as `str(p)` renders a resolved
`pathlib` path. -/
def absString (p : List (List Char)) : List Char :=
  '/' :: joinSlash p

/-- A notebook output `text` or `data` value, which nbformat stores either
as one string or as a list of line strings. -/
inductive JStr where
  | s (v : String)
  | l (vs : List String)
deriving DecidableEq

/-- The string a `JStr` denotes; list form is concatenated with
`"".join`. -/
def jstrText : JStr → String
  | .s v => v
  | .l vs => String.join vs

/-- One output record of a cell, following the dictionaries
`_outputs_to_text` inspects: a `stream` record with a `text` field, an
`error` record with `ename`/`evalue`/`traceback`, or any other record
carrying a `data` mapping of mime type to representation. -/
inductive Output where
  | stream (name : String) (text : JStr)
  | error (ename : String) (evalue : String) (traceback : List String)
  | display (data : List (String × JStr))
deriving DecidableEq

/-- The list of line entries `_outputs_to_text` accumulates in `lines`:
stream text as one entry, `ename: evalue` followed by the traceback lines
for errors (extending by an empty traceback is a no-op, so the source's
`if tb` guard is dropped), and the `text/plain` representation of a `data`
mapping when present. -/
def outputLines : List Output → List String
  | [] => []
  | o :: os =>
    (match o with
      | .stream _ t => [jstrText t]
      | .error en ev tb => (en ++ ": " ++ ev) :: tb
      | .display d =>
        match d.lookup "text/plain" with
        | some tp => [jstrText tp]
        | none => []) ++ outputLines os

/-- `_outputs_to_text` from `src/backend/notebooks.py`:
`"\n".join(lines).strip()`. -/
def _outputs_to_text (outputs : List Output) : String :=
  pyStrip (String.intercalate "\n" (outputLines outputs))

/-- A notebook cell: its kind tag, source text, opaque metadata, output
records, and optional execution count. -/
structure Cell where
  cell_type : String
  source : String
  metadata : String
  outputs : List Output
  execution_count : Option Nat
deriving DecidableEq

/-- A notebook document: opaque metadata and an ordered cell list. -/
structure Notebook where
  metadata : String
  cells : List Cell
deriving DecidableEq

/-- Modelled from the spec: the execution session provider
(`nbclient`'s kernel, out of scope per the spec's external-interface
contract) is missing from `src/`.  Per that contract it runs code fragments
sequentially in one fresh isolated runtime, deterministically: `run` gives
the output records of a fragment after a given history of fragments, and
`cost` gives the wall-clock the fragment consumes against the whole-call
budget.  `startup_ok` is false when the kernel cannot start
(`KernelStartupFailure`), and `internal_fault` carries the message of an
unexpected fault raised during a run, when one occurs. -/
structure SessionSpec where
  startup_ok : Bool
  internal_fault : Option String
  run : List String → String → List Output
  cost : List String → String → Nat

/-- Modelled from the spec: the cell loop of `NotebookClient.execute`
(external, missing from `src/`) per the specification's engine behavior:
code cells run in document order against one session, each executed cell's
outputs are replaced wholesale and it receives the next execution count;
a per-cell error does not stop the run (errors are ordinary output records
of `SessionSpec.run` under `allow_errors=True`); the timeout budget spans
the whole call, and once the next code cell's cost exceeds what remains,
execution of it and of every later cell is abandoned, leaving those cells
exactly as they were. -/
def execCells (S : SessionSpec) : List String → Nat → Nat → List Cell → List Cell
  | _, _, _, [] => []
  | hist, budget, count, c :: cs =>
    if c.cell_type = "code" then
      if S.cost hist c.source ≤ budget then
        { c with outputs := S.run hist c.source, execution_count := some count } ::
          execCells S (hist ++ [c.source]) (budget - S.cost hist c.source)
            (count + 1) cs
      else c :: cs
    else c :: execCells S hist budget count cs

/-- Modelled from the spec: `NotebookClient(...).execute()` (external,
missing from `src/`).  A kernel that cannot start or an unexpected internal
fault surfaces as a raised error; otherwise the cells are executed under the
whole-call budget and the executed document is returned (a timeout is a
degraded success, not a raised failure). -/
def clientExecute (S : SessionSpec) (nb : Notebook) (timeout : Nat) :
    Except String Notebook :=
  if S.startup_ok then
    match S.internal_fault with
    | some msg => .error msg
    | none => .ok ⟨nb.metadata, execCells S [] timeout 1 nb.cells⟩
  else .error "kernel startup failure"

/-- `_execute` from `src/backend/notebooks.py`: wraps `client.execute()`;
any raised error is caught and the notebook passed in is returned
("Even if execution fails, return the notebook"). -/
def _execute (S : SessionSpec) (nb : Notebook) (timeout : Nat) : Notebook :=
  match clientExecute S nb timeout with
  | .ok executed => executed
  | .error _ => nb

/-- The remaining budget and accumulated fragment history after the engine
runs a list of cells to completion; used to state when the whole-call budget
is exhausted. -/
def engBudget (S : SessionSpec) : List String → Nat → List Cell → Nat × List String
  | hist, b, [] => (b, hist)
  | hist, b, c :: cs =>
    if c.cell_type = "code" then
      engBudget S (hist ++ [c.source]) (b - S.cost hist c.source) cs
    else engBudget S hist b cs

/-- `run_all` from `src/backend/notebooks.py` (`nb_run_all` in
`src/v2main.py`): the stored notebook is executed and the result is both
persisted and returned. -/
def run_all (S : SessionSpec) (nb : Notebook) (timeout : Nat) : Notebook :=
  _execute S nb timeout

/-- The in-place update `nb.cells[idx].outputs = ...;
nb.cells[idx].execution_count = ...` of `run_cell`: replaces only those two
fields of the cell at the given index. -/
def mergeAt : List Cell → Nat → List Output → Option Nat → List Cell
  | [], _, _, _ => []
  | c :: cs, 0, outs, cnt => { c with outputs := outs, execution_count := cnt } :: cs
  | c :: cs, Nat.succ k, outs, cnt => c :: mergeAt cs k outs cnt

/-- The success payload of `run_cell`: the notebook written back to the
store and the executed cell returned in the response. -/
structure RunCellOk where
  written : Notebook
  cell : Cell
deriving DecidableEq

/-- `run_cell` from `src/backend/notebooks.py`: reject an index outside
`[0, len(cells))` with a 400 before touching the store; otherwise build the
partial notebook of cells `0 .. idx` with the original metadata, execute it,
and if the executed notebook still has more than `idx` cells, merge that
cell's outputs and execution count into the original at `idx`, persist, and
return it; otherwise fail with the 500 fallback "Cell execution failed". -/
def run_cell (S : SessionSpec) (nb : Notebook) (idx : Int) (timeout : Nat) :
    Except (Nat × String) RunCellOk :=
  if idx < 0 ∨ (nb.cells.length : Int) ≤ idx then
    .error (400, "Invalid cell_index: " ++ toString idx ++ " (notebook has "
      ++ toString nb.cells.length ++ " cells)")
  else
    match ( _execute S ⟨nb.metadata, nb.cells.take (idx.toNat + 1)⟩
        timeout).cells.get? idx.toNat with
    | some cell =>
      .ok ⟨⟨nb.metadata, mergeAt nb.cells idx.toNat cell.outputs cell.execution_count⟩,
        cell⟩
    | none => .error (500, "Cell execution failed")

/-- A markdown cell carries no outputs and no execution count; the data
model invariant the markdown claims are about. -/
def noMdOutputs (c : Cell) : Prop :=
  c.cell_type = "markdown" → c.outputs = [] ∧ c.execution_count = none

instance (c : Cell) : Decidable (noMdOutputs c) := by
  unfold noMdOutputs; infer_instance

/-- A deterministic demonstration session: each fragment yields one stream
record recording the fragment and how much history preceded it, and costs
one time unit. -/
def demoSession : SessionSpec where
  startup_ok := true
  internal_fault := none
  run := fun hist src => [Output.stream "stdout" (JStr.s (src ++ " #" ++ toString hist.length))]
  cost := fun _ _ => 1

/-- A session whose kernel fails to start. -/
def badSession : SessionSpec where
  startup_ok := false
  internal_fault := none
  run := fun _ _ => []
  cost := fun _ _ => 0

/-- A session that raises an unexpected internal fault during the run. -/
def faultySession : SessionSpec where
  startup_ok := true
  internal_fault := some "unexpected"
  run := fun _ _ => []
  cost := fun _ _ => 1

/-- A session whose fragments each cost five time units. -/
def slowSession : SessionSpec where
  startup_ok := true
  internal_fault := none
  run := fun _ _ => [Output.stream "stdout" (JStr.s "ran")]
  cost := fun _ _ => 5

/-- A demonstration notebook: one markdown cell and two code cells. -/
def demoNb : Notebook :=
  ⟨"meta", [⟨"markdown", "# Title", "", [], none⟩,
            ⟨"code", "x = 1", "", [], none⟩,
            ⟨"code", "print(x)", "", [], none⟩]⟩

/-- A notebook whose second code cell still carries outputs from an earlier
run. -/
def staleNb : Notebook :=
  ⟨"meta", [⟨"code", "x = 1", "", [], none⟩,
            ⟨"code", "y = 2", "", [Output.stream "stdout" (JStr.s "old")], some 7⟩]⟩

/-- Components never produced by lexical resolution. -/
def specialComp (c : List Char) : Prop :=
  c = [] ∨ c = ['.'] ∨ c = ['.', '.']

/-- A concrete configured root used in the path examples. -/
def demoRoot : List (List Char) :=
  [chars "app", chars "notebooks"]

/-- The result of `run_cell demoSession demoNb 2 10`, used as a concrete
instance in the claim witnesses. -/
def demoRunCellOk : RunCellOk :=
  ⟨⟨"meta", [⟨"markdown", "# Title", "", [], none⟩,
             ⟨"code", "x = 1", "", [], none⟩,
             ⟨"code", "print(x)", "",
               [Output.stream "stdout" (JStr.s "print(x) #1")], some 2⟩]⟩,
   ⟨"code", "print(x)", "",
     [Output.stream "stdout" (JStr.s "print(x) #1")], some 2⟩⟩

theorem execCells_nil (S : SessionSpec) (hist : List String) (b n : Nat) :
    execCells S hist b n [] = [] := rfl

theorem execCells_cons_run (S : SessionSpec) (hist : List String) (b n : Nat)
    (c : Cell) (cs : List Cell) (hc : c.cell_type = "code")
    (ht : S.cost hist c.source ≤ b) :
    execCells S hist b n (c :: cs) =
      { c with outputs := S.run hist c.source, execution_count := some n } ::
        execCells S (hist ++ [c.source]) (b - S.cost hist c.source) (n + 1) cs := by
  simp [execCells, hc, ht]

theorem execCells_cons_stop (S : SessionSpec) (hist : List String) (b n : Nat)
    (c : Cell) (cs : List Cell) (hc : c.cell_type = "code")
    (ht : ¬ S.cost hist c.source ≤ b) :
    execCells S hist b n (c :: cs) = c :: cs := by
  simp [execCells, hc, ht]

theorem execCells_cons_md (S : SessionSpec) (hist : List String) (b n : Nat)
    (c : Cell) (cs : List Cell) (hc : ¬ c.cell_type = "code") :
    execCells S hist b n (c :: cs) = c :: execCells S hist b n cs := by
  simp [execCells, hc]

theorem engBudget_nil (S : SessionSpec) (hist : List String) (b : Nat) :
    engBudget S hist b [] = (b, hist) := rfl

theorem engBudget_cons_code (S : SessionSpec) (hist : List String) (b : Nat)
    (c : Cell) (cs : List Cell) (hc : c.cell_type = "code") :
    engBudget S hist b (c :: cs) =
      engBudget S (hist ++ [c.source]) (b - S.cost hist c.source) cs := by
  simp [engBudget, hc]

theorem engBudget_cons_md (S : SessionSpec) (hist : List String) (b : Nat)
    (c : Cell) (cs : List Cell) (hc : ¬ c.cell_type = "code") :
    engBudget S hist b (c :: cs) = engBudget S hist b cs := by
  simp [engBudget, hc]

theorem execCells_length (S : SessionSpec) :
    ∀ (cs : List Cell) (hist : List String) (b n : Nat),
      (execCells S hist b n cs).length = cs.length := by
  intro cs
  induction cs with
  | nil => intro hist b n; rfl
  | cons c cs ih =>
    intro hist b n
    by_cases hc : c.cell_type = "code"
    · by_cases ht : S.cost hist c.source ≤ b
      · rw [execCells_cons_run S hist b n c cs hc ht]
        simp [ih]
      · rw [execCells_cons_stop S hist b n c cs hc ht]
    · rw [execCells_cons_md S hist b n c cs hc]
      simp [ih]

theorem execCells_append_take (S : SessionSpec) :
    ∀ (xs ys : List Cell) (hist : List String) (b n : Nat),
      (execCells S hist b n (xs ++ ys)).take xs.length =
        execCells S hist b n xs := by
  intro xs
  induction xs with
  | nil => intro ys hist b n; simp [execCells_nil]
  | cons c xs ih =>
    intro ys hist b n
    by_cases hc : c.cell_type = "code"
    · by_cases ht : S.cost hist c.source ≤ b
      · rw [List.cons_append, execCells_cons_run S hist b n c (xs ++ ys) hc ht,
          execCells_cons_run S hist b n c xs hc ht]
        simp only [List.length_cons, List.take_succ_cons]
        rw [ih]
      · rw [List.cons_append, execCells_cons_stop S hist b n c (xs ++ ys) hc ht,
          execCells_cons_stop S hist b n c xs hc ht]
        simp only [List.length_cons, List.take_succ_cons]
        rw [List.take_left]
    · rw [List.cons_append, execCells_cons_md S hist b n c (xs ++ ys) hc,
        execCells_cons_md S hist b n c xs hc]
      simp only [List.length_cons, List.take_succ_cons]
      rw [ih]

theorem execCells_get?_shape (S : SessionSpec) :
    ∀ (cs : List Cell) (hist : List String) (b n j : Nat) (c' : Cell),
      (execCells S hist b n cs).get? j = some c' →
      ∃ c, cs.get? j = some c ∧ c'.cell_type = c.cell_type ∧
        c'.source = c.source ∧ c'.metadata = c.metadata ∧
        (c.cell_type ≠ "code" → c' = c) := by
  intro cs
  induction cs with
  | nil => intro hist b n j c' h; simp [execCells_nil] at h
  | cons c cs ih =>
    intro hist b n j c' h
    by_cases hc : c.cell_type = "code"
    · by_cases ht : S.cost hist c.source ≤ b
      · rw [execCells_cons_run S hist b n c cs hc ht] at h
        cases j with
        | zero =>
          simp only [List.get?_cons_zero, Option.some.injEq] at h
          refine ⟨c, rfl, ?_, ?_, ?_, fun hnc => absurd hc hnc⟩ <;> rw [← h]
        | succ j =>
          simp only [List.get?_cons_succ] at h
          exact ih _ _ _ _ _ h
      · rw [execCells_cons_stop S hist b n c cs hc ht] at h
        exact ⟨c', h, rfl, rfl, rfl, fun _ => rfl⟩
    · rw [execCells_cons_md S hist b n c cs hc] at h
      cases j with
      | zero =>
        simp only [List.get?_cons_zero, Option.some.injEq] at h
        exact ⟨c, rfl, by rw [h], by rw [h], by rw [h], fun _ => h.symm⟩
      | succ j =>
        simp only [List.get?_cons_succ] at h
        exact ih _ _ _ _ _ h

theorem execCells_noMd (S : SessionSpec) :
    ∀ (cs : List Cell) (hist : List String) (b n : Nat),
      (∀ c ∈ cs, noMdOutputs c) →
      ∀ c' ∈ execCells S hist b n cs, noMdOutputs c' := by
  intro cs
  induction cs with
  | nil => intro hist b n _ c' h'; simp [execCells_nil] at h'
  | cons c cs ih =>
    intro hist b n hwf c' h'
    by_cases hc : c.cell_type = "code"
    · by_cases ht : S.cost hist c.source ≤ b
      · rw [execCells_cons_run S hist b n c cs hc ht] at h'
        rcases List.mem_cons.mp h' with h' | h'
        · intro hmd
          rw [h'] at hmd
          simp only at hmd
          rw [hc] at hmd
          exact absurd hmd (by decide)
        · exact ih _ _ _ (fun x hx => hwf x (List.mem_cons_of_mem c hx)) c' h'
      · rw [execCells_cons_stop S hist b n c cs hc ht] at h'
        exact hwf c' h'
    · rw [execCells_cons_md S hist b n c cs hc] at h'
      rcases List.mem_cons.mp h' with h' | h'
      · rw [h']; exact hwf c (List.mem_cons_self c cs)
      · exact ih _ _ _ (fun x hx => hwf x (List.mem_cons_of_mem c hx)) c' h'

theorem mergeAt_length :
    ∀ (cs : List Cell) (k : Nat) (outs : List Output) (cnt : Option Nat),
      (mergeAt cs k outs cnt).length = cs.length := by
  intro cs
  induction cs with
  | nil => intro k outs cnt; rfl
  | cons c cs ih =>
    intro k outs cnt
    cases k with
    | zero => rfl
    | succ k => simp [mergeAt, ih]

theorem mergeAt_get?_ne :
    ∀ (cs : List Cell) (k : Nat) (outs : List Output) (cnt : Option Nat) (j : Nat),
      j ≠ k → (mergeAt cs k outs cnt).get? j = cs.get? j := by
  intro cs
  induction cs with
  | nil => intro k outs cnt j _; rfl
  | cons c cs ih =>
    intro k outs cnt j hj
    cases k with
    | zero =>
      cases j with
      | zero => exact absurd rfl hj
      | succ j => rfl
    | succ k =>
      cases j with
      | zero => rfl
      | succ j =>
        simp only [mergeAt, List.get?_cons_succ]
        exact ih k outs cnt j (fun h => hj (by rw [h]))

theorem mergeAt_get?_eq :
    ∀ (cs : List Cell) (k : Nat) (outs : List Output) (cnt : Option Nat) (c : Cell),
      cs.get? k = some c →
      (mergeAt cs k outs cnt).get? k =
        some { c with outputs := outs, execution_count := cnt } := by
  intro cs
  induction cs with
  | nil => intro k outs cnt c h; simp at h
  | cons c0 cs ih =>
    intro k outs cnt c h
    cases k with
    | zero =>
      simp only [List.get?_cons_zero, Option.some.injEq] at h
      rw [h]; rfl
    | succ k =>
      simp only [List.get?_cons_succ] at h
      simp only [mergeAt, List.get?_cons_succ]
      exact ih k outs cnt c h

theorem mergeAt_mem :
    ∀ (cs : List Cell) (k : Nat) (outs : List Output) (cnt : Option Nat) (x : Cell),
      x ∈ mergeAt cs k outs cnt →
      x ∈ cs ∨ ∃ c, cs.get? k = some c ∧
        x = { c with outputs := outs, execution_count := cnt } := by
  intro cs
  induction cs with
  | nil => intro k outs cnt x h; simp [mergeAt] at h
  | cons c cs ih =>
    intro k outs cnt x h
    cases k with
    | zero =>
      rcases List.mem_cons.mp h with h | h
      · exact Or.inr ⟨c, rfl, h⟩
      · exact Or.inl (List.mem_cons_of_mem c h)
    | succ k =>
      rcases List.mem_cons.mp h with h | h
      · exact Or.inl (h ▸ List.mem_cons_self c cs)
      · rcases ih k outs cnt x h with h' | ⟨c0, hc0, hx⟩
        · exact Or.inl (List.mem_cons_of_mem c h')
        · exact Or.inr ⟨c0, hc0, hx⟩

theorem clientExecute_ok (S : SessionSpec) (nb : Notebook) (t : Nat)
    (hs : S.startup_ok = true) (hf : S.internal_fault = none) :
    clientExecute S nb t = .ok ⟨nb.metadata, execCells S [] t 1 nb.cells⟩ := by
  simp [clientExecute, hs, hf]

theorem _execute_ok (S : SessionSpec) (nb : Notebook) (t : Nat)
    (hs : S.startup_ok = true) (hf : S.internal_fault = none) :
    _execute S nb t = ⟨nb.metadata, execCells S [] t 1 nb.cells⟩ := by
  rw [_execute, clientExecute_ok S nb t hs hf]

theorem _execute_fault (S : SessionSpec) (nb : Notebook) (t : Nat)
    (h : S.startup_ok = false ∨ S.internal_fault ≠ none) :
    _execute S nb t = nb := by
  rw [_execute]
  rcases h with h | h
  · simp [clientExecute, h]
  · rcases Option.ne_none_iff_exists.mp h with ⟨msg, hmsg⟩
    simp only [clientExecute, ← hmsg]
    split
    · rename_i executed heq
      by_cases hb : S.startup_ok = true <;> simp [hb] at heq
    · rfl

theorem _execute_cells_length (S : SessionSpec) (nb : Notebook) (t : Nat) :
    ( _execute S nb t).cells.length = nb.cells.length := by
  rw [_execute]
  rcases hs : S.startup_ok with _ | _
  · simp [clientExecute, hs]
  · rcases hf : S.internal_fault with _ | msg
    · rw [clientExecute_ok S nb t hs hf]
      exact execCells_length S nb.cells [] t 1
    · simp [clientExecute, hs, hf]

theorem execCells_split (S : SessionSpec) :
    ∀ (cs : List Cell) (hist : List String) (b n : Nat),
      ∃ k, k ≤ cs.length ∧
        execCells S hist b n cs =
          execCells S hist b n (cs.take k) ++ cs.drop k ∧
        (∀ j cj, j < k → cs.get? j = some cj → cj.cell_type = "code" →
          ∃ m outs, (execCells S hist b n cs).get? j =
            some { cj with outputs := outs, execution_count := some m }) ∧
        (k < cs.length → ∃ ck, cs.get? k = some ck ∧ ck.cell_type = "code" ∧
          (engBudget S hist b (cs.take k)).1 <
            S.cost (engBudget S hist b (cs.take k)).2 ck.source) := by
  intro cs
  induction cs with
  | nil =>
    intro hist b n
    exact ⟨0, Nat.le_refl _, by simp [execCells_nil],
      fun j cj hj => absurd hj (Nat.not_lt_zero j),
      fun h => absurd h (by simp)⟩
  | cons c cs ih =>
    intro hist b n
    by_cases hc : c.cell_type = "code"
    · by_cases ht : S.cost hist c.source ≤ b
      · obtain ⟨k, hk, heq, hexec, hstop⟩ :=
          ih (hist ++ [c.source]) (b - S.cost hist c.source) (n + 1)
        refine ⟨k + 1, by simpa using Nat.succ_le_succ hk, ?_, ?_, ?_⟩
        · rw [execCells_cons_run _ _ _ _ _ _ hc ht]
          simp only [List.take_succ_cons, List.drop_succ_cons]
          rw [execCells_cons_run _ _ _ _ _ _ hc ht, List.cons_append, heq]
        · intro j cj hj hcj hcode
          cases j with
          | zero =>
            simp only [List.get?_cons_zero, Option.some.injEq] at hcj
            subst hcj
            rw [execCells_cons_run _ _ _ _ _ _ hc ht]
            exact ⟨n, S.run hist c.source, rfl⟩
          | succ j =>
            rw [execCells_cons_run _ _ _ _ _ _ hc ht]
            simp only [List.get?_cons_succ] at hcj ⊢
            exact hexec j cj (Nat.lt_of_succ_lt_succ hj) hcj hcode
        · intro hklen
          simp only [List.length_cons, Nat.succ_lt_succ_iff] at hklen
          obtain ⟨ck, hck, hcodek, hbud⟩ := hstop hklen
          refine ⟨ck, by simpa using hck, hcodek, ?_⟩
          simp only [List.take_succ_cons]
          rw [engBudget_cons_code _ _ _ _ _ hc]
          exact hbud
      · refine ⟨0, Nat.zero_le _, ?_, ?_, ?_⟩
        · simp [execCells_cons_stop _ _ _ _ _ _ hc ht, execCells_nil]
        · intro j cj hj; exact absurd hj (Nat.not_lt_zero j)
        · intro _
          refine ⟨c, rfl, hc, ?_⟩
          simp only [List.take_zero]
          rw [engBudget_nil]
          exact Nat.lt_of_not_le ht
    · obtain ⟨k, hk, heq, hexec, hstop⟩ := ih hist b n
      refine ⟨k + 1, by simpa using Nat.succ_le_succ hk, ?_, ?_, ?_⟩
      · rw [execCells_cons_md _ _ _ _ _ _ hc]
        simp only [List.take_succ_cons, List.drop_succ_cons]
        rw [execCells_cons_md _ _ _ _ _ _ hc, List.cons_append, heq]
      · intro j cj hj hcj hcode
        cases j with
        | zero =>
          simp only [List.get?_cons_zero, Option.some.injEq] at hcj
          subst hcj
          exact absurd hcode hc
        | succ j =>
          rw [execCells_cons_md _ _ _ _ _ _ hc]
          simp only [List.get?_cons_succ] at hcj ⊢
          exact hexec j cj (Nat.lt_of_succ_lt_succ hj) hcj hcode
      · intro hklen
        simp only [List.length_cons, Nat.succ_lt_succ_iff] at hklen
        obtain ⟨ck, hck, hcodek, hbud⟩ := hstop hklen
        refine ⟨ck, by simpa using hck, hcodek, ?_⟩
        simp only [List.take_succ_cons]
        rw [engBudget_cons_md _ _ _ _ _ hc]
        exact hbud

theorem splitOnChar_ne_nil (sep : Char) : ∀ l, splitOnChar sep l ≠ [] := by
  intro l
  cases l with
  | nil => simp [splitOnChar]
  | cons c cs =>
    rcases h : splitOnChar sep cs with _ | ⟨g, gs⟩
    · simp [splitOnChar, h]
    · by_cases hc : c = sep <;> simp [splitOnChar, h, hc]

theorem splitOnChar_sepFree (sep : Char) :
    ∀ l g, g ∈ splitOnChar sep l → sep ∉ g := by
  intro l
  induction l with
  | nil =>
    intro g hg
    simp [splitOnChar] at hg
    simp [hg]
  | cons c cs ih =>
    intro g hg
    rcases h : splitOnChar sep cs with _ | ⟨g0, gs⟩
    · exact absurd h (splitOnChar_ne_nil sep cs)
    · by_cases hc : c = sep
      · rw [show splitOnChar sep (c :: cs) = [] :: g0 :: gs by
            simp [splitOnChar, h, hc]] at hg
        rcases List.mem_cons.mp hg with hg | hg
        · simp [hg]
        · exact ih g (h ▸ hg)
      · rw [show splitOnChar sep (c :: cs) = (c :: g0) :: gs by
            simp [splitOnChar, h, hc]] at hg
        rcases List.mem_cons.mp hg with hg | hg
        · subst hg
          intro hmem
          rcases List.mem_cons.mp hmem with hmem | hmem
          · exact hc hmem.symm
          · exact ih g0 (h ▸ List.mem_cons_self g0 gs) hmem
        · exact ih g (h ▸ List.mem_cons_of_mem g0 hg)

theorem splitOnChar_noSep (sep : Char) :
    ∀ g, sep ∉ g → splitOnChar sep g = [g] := by
  intro g
  induction g with
  | nil => intro _; rfl
  | cons c g ih =>
    intro h
    have hc : ¬ c = sep := fun he => h (he ▸ List.mem_cons_self c g)
    have hg : sep ∉ g := fun hm => h (List.mem_cons_of_mem c hm)
    simp [splitOnChar, ih hg, hc]

theorem splitOnChar_append_sep (sep : Char) :
    ∀ g t, sep ∉ g →
      splitOnChar sep (g ++ sep :: t) = g :: splitOnChar sep t := by
  intro g
  induction g with
  | nil =>
    intro t _
    rcases h : splitOnChar sep t with _ | ⟨g0, gs⟩
    · exact absurd h (splitOnChar_ne_nil sep t)
    · simp [splitOnChar, h]
  | cons c g ih =>
    intro t h
    have hc : ¬ c = sep := fun he => h (he ▸ List.mem_cons_self c g)
    have hg : sep ∉ g := fun hm => h (List.mem_cons_of_mem c hm)
    simp [splitOnChar, ih t hg, hc]

theorem splitOnChar_joinSlash :
    ∀ gs, gs ≠ [] → (∀ g ∈ gs, '/' ∉ g) →
      splitOnChar '/' (joinSlash gs) = gs := by
  intro gs
  induction gs with
  | nil => intro h; exact absurd rfl h
  | cons g gs ih =>
    intro _ hfree
    cases gs with
    | nil => exact splitOnChar_noSep '/' g (hfree g (List.mem_cons_self g []))
    | cons g' gs' =>
      rw [show joinSlash (g :: g' :: gs') = g ++ '/' :: joinSlash (g' :: gs') from rfl,
        splitOnChar_append_sep '/' g _ (hfree g (List.mem_cons_self g _)),
        ih (by simp) (fun x hx => hfree x (List.mem_cons_of_mem g hx))]

theorem foldl_resolveStep_subset :
    ∀ (l : List (List Char)) (acc : List (List Char)) (x : List Char),
      x ∈ l.foldl resolveStep acc → x ∈ acc ∨ x ∈ l := by
  intro l
  induction l with
  | nil => intro acc x h; exact Or.inl h
  | cons c l ih =>
    intro acc x h
    rcases ih (resolveStep acc c) x h with h' | h'
    · unfold resolveStep at h'
      split at h'
      · exact Or.inl h'
      · split at h'
        · exact Or.inl ((List.dropLast_sublist acc).subset h')
        · rcases List.mem_append.mp h' with h'' | h''
          · exact Or.inl h''
          · simp only [List.mem_singleton] at h''
            exact Or.inr (h'' ▸ List.mem_cons_self c l)
    · exact Or.inr (List.mem_cons_of_mem c h')

theorem foldl_resolveStep_noSpecial :
    ∀ (l : List (List Char)) (acc : List (List Char)),
      (∀ x ∈ acc, ¬ specialComp x) →
      ∀ x ∈ l.foldl resolveStep acc, ¬ specialComp x := by
  intro l
  induction l with
  | nil => intro acc hacc x h; exact hacc x h
  | cons c l ih =>
    intro acc hacc x h
    refine ih (resolveStep acc c) ?_ x h
    intro y hy
    unfold resolveStep at hy
    split at hy
    · exact hacc y hy
    · split at hy
      · exact hacc y ((List.dropLast_sublist acc).subset hy)
      · rcases List.mem_append.mp hy with hy' | hy'
        · exact hacc y hy'
        · simp only [List.mem_singleton] at hy'
          subst hy'
          rename_i h1 h2
          intro hs
          rcases hs with hs | hs | hs
          · exact h1 (Or.inl hs)
          · exact h1 (Or.inr hs)
          · exact h2 hs

theorem resolveComps_noSpecial (l : List (List Char)) :
    ∀ x ∈ resolveComps l, ¬ specialComp x :=
  foldl_resolveStep_noSpecial l [] (by simp)

theorem foldl_resolveStep_clean :
    ∀ (l : List (List Char)) (acc : List (List Char)),
      (∀ x ∈ l, ¬ specialComp x) →
      l.foldl resolveStep acc = acc ++ l := by
  intro l
  induction l with
  | nil => intro acc _; simp
  | cons c l ih =>
    intro acc hl
    have hc : ¬ specialComp c := hl c (List.mem_cons_self c l)
    have hstep : resolveStep acc c = acc ++ [c] := by
      unfold resolveStep
      rw [if_neg, if_neg]
      · intro h; exact hc (Or.inr (Or.inr h))
      · rintro (h | h)
        · exact hc (Or.inl h)
        · exact hc (Or.inr (Or.inl h))
    rw [List.foldl_cons, hstep, ih (acc ++ [c]) (fun x hx => hl x (List.mem_cons_of_mem c hx))]
    simp

theorem append_drop_of_ancestor {α : Type} {l p : List α} (h : l <+: p) :
    l ++ p.drop l.length = p := by
  obtain ⟨t, rfl⟩ := h
  rw [List.drop_left]

theorem safe_nb_path_eq (root : List (List Char)) (rel : List Char) :
    _safe_nb_path root rel =
      if ¬ (root <+: resolvedCandidate root rel ∧ root ≠ resolvedCandidate root rel) ∧
          resolvedCandidate root rel ≠ root
      then .error "Invalid notebook path"
      else .ok (resolvedCandidate root rel) := rfl

theorem safe_nb_path_ok_elim (root : List (List Char)) (rel : List Char)
    (p : List (List Char)) (h : _safe_nb_path root rel = .ok p) :
    p = resolvedCandidate root rel ∧ root <+: p := by
  rw [safe_nb_path_eq] at h
  split at h
  · exact absurd h (by simp)
  · rename_i hcond
    simp only [Except.ok.injEq] at h
    subst h
    refine ⟨rfl, ?_⟩
    by_cases hq : resolvedCandidate root rel = root
    · rw [hq]
    · rcases not_and_or.mp hcond with h1 | h2
      · exact (not_not.mp h1).1
      · exact absurd (not_not.mp h2) hq

theorem safe_nb_path_ok_intro (root : List (List Char)) (rel : List Char)
    (h : root <+: resolvedCandidate root rel) :
    _safe_nb_path root rel = .ok (resolvedCandidate root rel) := by
  rw [safe_nb_path_eq, if_neg]
  rintro ⟨h1, h2⟩
  exact h1 ⟨h, fun he => h2 he.symm⟩

theorem safe_nb_path_error_intro (root : List (List Char)) (rel : List Char)
    (h : ¬ root <+: resolvedCandidate root rel) :
    _safe_nb_path root rel = .error "Invalid notebook path" := by
  rw [safe_nb_path_eq, if_pos]
  refine ⟨fun hp => h hp.1, fun he => h ?_⟩
  rw [he]

/-- C5: a relative path whose resolution escapes the configured root is
rejected with the invalid-path error (before any file access: the function
is pure, mirroring that the source raises before touching files), and
resolution succeeds exactly with the resolved candidate, which then has the
root as a prefix (the root itself or strictly inside its subtree); in
particular the traversal `../../etc/passwd` under `/home/u/notebooks` is
rejected. -/
theorem safe_nb_path_sandbox :
    (∀ root rel p, _safe_nb_path root rel = .ok p →
      root <+: p ∧ p = resolvedCandidate root rel) ∧
    (∀ root rel, ¬ root <+: resolvedCandidate root rel →
      _safe_nb_path root rel = .error "Invalid notebook path") ∧
    _safe_nb_path [chars "home", chars "u", chars "notebooks"]
      (chars "../../etc/passwd") = .error "Invalid notebook path" := by
  refine ⟨?_, safe_nb_path_error_intro, by decide⟩
  intro root rel p h
  obtain ⟨hp, hpre⟩ := safe_nb_path_ok_elim root rel p h
  exact ⟨hpre, hp⟩

/-- C5 witness: under the root `/app/notebooks` the path `a` resolves to
`/app/notebooks/a.ipynb`, which has the root as a prefix. -/
theorem safe_nb_path_sandbox_witness :
    _safe_nb_path demoRoot (chars "a") =
      .ok [chars "app", chars "notebooks", chars "a.ipynb"] ∧
    demoRoot <+: [chars "app", chars "notebooks", chars "a.ipynb"] := by
  refine ⟨by decide, ?_⟩
  exact (safe_nb_path_sandbox.1 demoRoot (chars "a")
    [chars "app", chars "notebooks", chars "a.ipynb"] (by decide)).1

/-- C6 counterexample: resolution is not idempotent as claimed.  Under the
root `/app/notebooks`, the path `a` resolves to `/app/notebooks/a.ipynb`,
but resolving that already-resolved (absolute) path again strips the leading
slash and re-joins under the root, yielding the different path
`/app/notebooks/app/notebooks/a.ipynb`. -/
theorem resolve_not_idempotent_absolute :
    _safe_nb_path demoRoot (chars "a") =
      .ok [chars "app", chars "notebooks", chars "a.ipynb"] ∧
    _safe_nb_path demoRoot
        (absString [chars "app", chars "notebooks", chars "a.ipynb"]) =
      .ok [chars "app", chars "notebooks", chars "app", chars "notebooks",
        chars "a.ipynb"] ∧
    [chars "app", chars "notebooks", chars "app", chars "notebooks",
      chars "a.ipynb"] ≠ [chars "app", chars "notebooks", chars "a.ipynb"] := by
  decide

/-- C6 amended: resolution is idempotent on root-relative results.  For any
relative path accepted with a resolved path strictly inside a clean root,
re-resolving the result expressed relative to the root (the form the list
and get operations hand back to clients) yields the same resolved path,
provided that relative form is unchanged by the normalizer (which holds for
ordinary names; only a leading-whitespace component violates it). -/
theorem resolve_idempotent_relative
    (root : List (List Char)) (rel : List Char) (p : List (List Char))
    (hroot : ∀ c ∈ root, cleanComp c)
    (hok : _safe_nb_path root rel = .ok p)
    (hlen : root.length < p.length)
    (hnorm : normRel (joinSlash (p.drop root.length)) =
      joinSlash (p.drop root.length)) :
    _safe_nb_path root (joinSlash (p.drop root.length)) = .ok p := by
  obtain ⟨hp, hpre⟩ := safe_nb_path_ok_elim root rel p hok
  have happ : root ++ p.drop root.length = p := append_drop_of_ancestor hpre
  have hlen2 : root.length + (p.drop root.length).length = p.length := by
    have h := congrArg List.length happ
    simpa using h
  have hex_ne : p.drop root.length ≠ [] := by
    intro h
    rw [h] at hlen2
    simp at hlen2
    omega
  have hspec : ∀ x ∈ p, ¬ specialComp x := by
    intro x hx
    rw [hp] at hx
    exact resolveComps_noSpecial _ x hx
  have hsep : ∀ x ∈ p, '/' ∉ x := by
    intro x hx
    rw [hp] at hx
    simp only [resolvedCandidate, resolveComps] at hx
    rcases foldl_resolveStep_subset _ [] x hx with h | h
    · simp at h
    · rcases List.mem_append.mp h with h | h
      · have hcx := hroot x h
        unfold cleanComp at hcx
        exact hcx.2.2.2
      · exact splitOnChar_sepFree '/' _ x h
  have hmem_extra : ∀ x ∈ p.drop root.length, x ∈ p := by
    intro x hx
    rw [← happ]
    exact List.mem_append_right root hx
  have hsplit : splitOnChar '/' (joinSlash (p.drop root.length)) =
      p.drop root.length :=
    splitOnChar_joinSlash _ hex_ne (fun x hx => hsep x (hmem_extra x hx))
  have hclean : ∀ x ∈ root ++ p.drop root.length, ¬ specialComp x := by
    intro x hx
    rcases List.mem_append.mp hx with h | h
    · have hcx := hroot x h
      unfold cleanComp at hcx
      rintro (hs | hs | hs)
      · exact hcx.1 hs
      · exact hcx.2.1 hs
      · exact hcx.2.2.1 hs
    · exact hspec x (hmem_extra x h)
  have hres : resolveComps (root ++ p.drop root.length) =
      root ++ p.drop root.length := by
    unfold resolveComps
    rw [foldl_resolveStep_clean (root ++ p.drop root.length) [] hclean]
    simp
  have hcand : resolvedCandidate root (joinSlash (p.drop root.length)) = p := by
    simp only [resolvedCandidate, hnorm, hsplit]
    rw [hres, happ]
  have hpre2 : root <+: resolvedCandidate root (joinSlash (p.drop root.length)) := by
    rw [hcand]
    exact hpre
  rw [safe_nb_path_ok_intro root _ hpre2, hcand]

/-- C6 witness: re-resolving `a.ipynb`, the root-relative form of the
resolved path of `a` under the root `/app/notebooks`, yields the same
resolved path. -/
theorem resolve_idempotent_relative_witness :
    (∀ c ∈ demoRoot, cleanComp c) ∧
    _safe_nb_path demoRoot (chars "a") =
      .ok [chars "app", chars "notebooks", chars "a.ipynb"] ∧
    demoRoot.length <
      ([chars "app", chars "notebooks", chars "a.ipynb"] : List (List Char)).length ∧
    normRel (joinSlash
      (([chars "app", chars "notebooks", chars "a.ipynb"] : List (List Char)).drop
        demoRoot.length)) =
      joinSlash
        (([chars "app", chars "notebooks", chars "a.ipynb"] : List (List Char)).drop
          demoRoot.length) ∧
    _safe_nb_path demoRoot
        (joinSlash
          (([chars "app", chars "notebooks", chars "a.ipynb"] : List (List Char)).drop
            demoRoot.length)) =
      .ok [chars "app", chars "notebooks", chars "a.ipynb"] := by
  refine ⟨by decide, by decide, by decide, by decide, ?_⟩
  exact resolve_idempotent_relative demoRoot (chars "a")
    [chars "app", chars "notebooks", chars "a.ipynb"]
    (by decide) (by decide) (by decide) (by decide)

/-- C7: an index outside the valid range is rejected with the 400
invalid-index error carrying the index and the cell count; the error is
produced by the bounds check at the top of `run_cell`, before the store is
written, so the stored document is untouched (the written notebook exists
only in the success payload). -/
theorem runCell_invalid_index (S : SessionSpec) (nb : Notebook) (idx : Int)
    (t : Nat) (h : idx < 0 ∨ (nb.cells.length : Int) ≤ idx) :
    run_cell S nb idx t = .error (400, "Invalid cell_index: " ++ toString idx ++
      " (notebook has " ++ toString nb.cells.length ++ " cells)") := by
  unfold run_cell
  rw [if_pos h]

/-- C7 witness: index `-1` on the three-cell demonstration notebook is
rejected with the 400 error. -/
theorem runCell_invalid_index_witness :
    ((-1 : Int) < 0 ∨ ((demoNb.cells.length : Int) ≤ -1)) ∧
    run_cell demoSession demoNb (-1) 10 =
      .error (400, "Invalid cell_index: -1 (notebook has 3 cells)") := by
  refine ⟨Or.inl (by decide), ?_⟩
  have h := runCell_invalid_index demoSession demoNb (-1) 10 (Or.inl (by decide))
  rw [h]
  decide

/-- C3: when the kernel cannot start or an unexpected internal fault is
raised during a run, the catch-all in `_execute` absorbs the error and the
original document is returned unmodified, both by `_execute` itself and by
the run-all operation; no error value reaches the caller (`_execute` and
`run_all` are total, notebook-valued). -/
theorem execute_fault_returns_original (S : SessionSpec) (nb : Notebook)
    (t : Nat) (h : S.startup_ok = false ∨ S.internal_fault ≠ none) :
    _execute S nb t = nb ∧ run_all S nb t = nb := by
  have he := _execute_fault S nb t h
  exact ⟨he, he⟩

/-- C3 witness: a session whose kernel fails to start leaves the
demonstration notebook unchanged. -/
theorem execute_fault_returns_original_witness :
    (badSession.startup_ok = false ∨ badSession.internal_fault ≠ none) ∧
    _execute badSession demoNb 10 = demoNb ∧
    run_all badSession demoNb 10 = demoNb := by
  refine ⟨Or.inl (by decide), ?_⟩
  exact execute_fault_returns_original badSession demoNb 10 (Or.inl (by decide))

/-- C10: once the bounds check passes, the 500 fallback branch of
`run_cell` is unreachable: the partial notebook has exactly `idx + 1` cells,
`_execute` preserves the cell count on both its success and its fault path,
so the executed cell lookup always succeeds and the call returns a success
payload. -/
theorem runCell_fallback_unreachable (S : SessionSpec) (nb : Notebook)
    (idx : Int) (t : Nat) (h0 : 0 ≤ idx) (h1 : idx < (nb.cells.length : Int)) :
    ∃ r, run_cell S nb idx t = .ok r := by
  have hbound : ¬ (idx < 0 ∨ (nb.cells.length : Int) ≤ idx) := by omega
  have hi : idx.toNat < nb.cells.length := by omega
  unfold run_cell
  rw [if_neg hbound]
  have hlen : ( _execute S ⟨nb.metadata, nb.cells.take (idx.toNat + 1)⟩ t).cells.length
      = idx.toNat + 1 := by
    rw [_execute_cells_length]
    show (nb.cells.take (idx.toNat + 1)).length = idx.toNat + 1
    simp only [List.length_take]
    omega
  rcases hg : ( _execute S ⟨nb.metadata, nb.cells.take (idx.toNat + 1)⟩ t).cells.get?
      idx.toNat with _ | cell
  · exfalso
    rw [List.get?_eq_none] at hg
    omega
  · exact ⟨_, rfl⟩

/-- C10 witness: index 2 on the three-cell demonstration notebook yields a
success payload. -/
theorem runCell_fallback_unreachable_witness :
    (0 : Int) ≤ 2 ∧ (2 : Int) < (demoNb.cells.length : Int) ∧
    ∃ r, run_cell demoSession demoNb 2 10 = .ok r := by
  refine ⟨by decide, by decide, ?_⟩
  exact runCell_fallback_unreachable demoSession demoNb 2 10 (by decide) (by decide)

/-- C1: a successful `run_cell` persists a notebook that differs from the
stored one at most in cell `idx`: the metadata is unchanged, the cell count
is unchanged, every cell at another index is identical (previously stored
outputs and execution counts included), and even at `idx` the kind, source
and metadata are preserved — only its outputs and execution count are
replaced. -/
theorem runCell_frame (S : SessionSpec) (nb : Notebook) (idx : Int) (t : Nat)
    (r : RunCellOk) (h : run_cell S nb idx t = .ok r) :
    r.written.metadata = nb.metadata ∧
    r.written.cells.length = nb.cells.length ∧
    (∀ j, j ≠ idx.toNat → r.written.cells.get? j = nb.cells.get? j) ∧
    (∀ c c', nb.cells.get? idx.toNat = some c →
      r.written.cells.get? idx.toNat = some c' →
      c'.cell_type = c.cell_type ∧ c'.source = c.source ∧
        c'.metadata = c.metadata) := by
  unfold run_cell at h
  split at h
  · exact absurd h (by simp)
  · split at h
    · rename_i cell hg
      simp only [Except.ok.injEq] at h
      subst h
      refine ⟨rfl, mergeAt_length nb.cells idx.toNat cell.outputs cell.execution_count,
        ?_, ?_⟩
      · intro j hj
        exact mergeAt_get?_ne nb.cells idx.toNat cell.outputs cell.execution_count j hj
      · intro c c' hc hc'
        rw [show (⟨⟨nb.metadata, mergeAt nb.cells idx.toNat cell.outputs
            cell.execution_count⟩, cell⟩ : RunCellOk).written.cells =
            mergeAt nb.cells idx.toNat cell.outputs cell.execution_count from rfl,
          mergeAt_get?_eq nb.cells idx.toNat cell.outputs cell.execution_count c hc]
          at hc'
        simp only [Option.some.injEq] at hc'
        rw [← hc']
        exact ⟨rfl, rfl, rfl⟩
    · exact absurd h (by simp)

/-- C1 witness: running cell 2 of the demonstration notebook leaves cells 0
and 1 identical in the persisted notebook. -/
theorem runCell_frame_witness :
    run_cell demoSession demoNb 2 10 = .ok demoRunCellOk ∧
    (∀ j, j ≠ (2 : Int).toNat →
      demoRunCellOk.written.cells.get? j = demoNb.cells.get? j) := by
  refine ⟨by decide, ?_⟩
  exact (runCell_frame demoSession demoNb 2 10 demoRunCellOk (by decide)).2.2.1

/-- C4: with a deterministic session provider that starts and does not
fault, the cell returned by `run_cell` at a valid index carries exactly the
outputs and execution count that the full `run_all` of the same document
under the same budget produces for that cell — replay over the prefix
reconstructs the same state. -/
theorem runCell_replay (S : SessionSpec) (nb : Notebook) (idx : Int) (t : Nat)
    (r : RunCellOk) (hs : S.startup_ok = true) (hf : S.internal_fault = none)
    (h : run_cell S nb idx t = .ok r) :
    ∃ c, (run_all S nb t).cells.get? idx.toNat = some c ∧
      r.cell.outputs = c.outputs ∧
      r.cell.execution_count = c.execution_count := by
  unfold run_cell at h
  split at h
  · exact absurd h (by simp)
  · rename_i hbound
    split at h
    · rename_i cell hg
      simp only [Except.ok.injEq] at h
      subst h
      rw [_execute_ok S _ t hs hf] at hg
      rw [run_all, _execute_ok S nb t hs hf]
      refine ⟨cell, ?_, rfl, rfl⟩
      push_neg at hbound
      have hi1 : idx.toNat + 1 ≤ nb.cells.length := by omega
      have hxslen : (nb.cells.take (idx.toNat + 1)).length = idx.toNat + 1 := by
        simp only [List.length_take]
        omega
      obtain ⟨xs, ys, hxy, hxslen2⟩ :
          ∃ xs ys, nb.cells = xs ++ ys ∧ xs.length = idx.toNat + 1 :=
        ⟨nb.cells.take (idx.toNat + 1), nb.cells.drop (idx.toNat + 1),
          (List.take_append_drop _ _).symm, hxslen⟩
      have hxeq : nb.cells.take (idx.toNat + 1) = xs := by
        rw [hxy, ← hxslen2, List.take_left]
      rw [hxeq] at hg
      have hg' : (execCells S [] t 1 xs).get? idx.toNat = some cell := hg
      rw [← execCells_append_take S xs ys [] t 1,
        List.get?_take (show idx.toNat < xs.length by omega)] at hg'
      rw [hxy]
      exact hg'
    · exact absurd h (by simp)

/-- C4 witness: running cell 2 of the demonstration notebook reproduces the
outputs and execution count that a full run assigns to cell 2. -/
theorem runCell_replay_witness :
    demoSession.startup_ok = true ∧ demoSession.internal_fault = none ∧
    run_cell demoSession demoNb 2 10 = .ok demoRunCellOk ∧
    (∃ c, (run_all demoSession demoNb 10).cells.get? (2 : Int).toNat = some c ∧
      demoRunCellOk.cell.outputs = c.outputs ∧
      demoRunCellOk.cell.execution_count = c.execution_count) := by
  refine ⟨rfl, rfl, by decide, ?_⟩
  exact runCell_replay demoSession demoNb 2 10 demoRunCellOk rfl rfl (by decide)

/-- C2 counterexample: with a session that costs five units per fragment
and a budget of five, running the stale two-cell notebook executes only the
first cell; the remaining second cell does not end with empty outputs and no
execution count — it keeps its previously stored stream output and count 7.
The budget is genuinely exhausted mid-run (the first cell did execute and
received fresh outputs), the call returned a value, yet the remaining cell's
outputs are nonempty. -/
theorem runAll_timeout_counterexample :
    (run_all slowSession staleNb 5).cells.get? 0 =
      some ⟨"code", "x = 1", "", [Output.stream "stdout" (JStr.s "ran")], some 1⟩ ∧
    (run_all slowSession staleNb 5).cells.get? 1 =
      some ⟨"code", "y = 2", "", [Output.stream "stdout" (JStr.s "old")], some 7⟩ ∧
    ([Output.stream "stdout" (JStr.s "old")] ≠ ([] : List Output) ∧
      (some 7 ≠ (none : Option Nat))) := by
  decide

/-- C2 amended: the budget applies to the whole call and is threaded across
cells; when it runs out mid-run the call still returns a document (never an
error): there is a cut `k` such that the result is the executed prefix of
the first `k` cells followed by the untouched remainder, every code cell
before the cut received outputs and an execution count, and when the cut is
proper it sits at a code cell whose cost exceeds the remaining budget — so
remaining cells keep exactly their prior contents (empty outputs and no
count only when they were already so). -/
theorem runAll_timeout_truncation (S : SessionSpec) (nb : Notebook) (t : Nat)
    (hs : S.startup_ok = true) (hf : S.internal_fault = none) :
    ∃ k, k ≤ nb.cells.length ∧
      (run_all S nb t).cells =
        execCells S [] t 1 (nb.cells.take k) ++ nb.cells.drop k ∧
      (∀ j cj, j < k → nb.cells.get? j = some cj → cj.cell_type = "code" →
        ∃ m outs, (run_all S nb t).cells.get? j =
          some { cj with outputs := outs, execution_count := some m }) ∧
      (k < nb.cells.length → ∃ ck, nb.cells.get? k = some ck ∧
        ck.cell_type = "code" ∧
        (engBudget S [] t (nb.cells.take k)).1 <
          S.cost (engBudget S [] t (nb.cells.take k)).2 ck.source) := by
  have hra : (run_all S nb t).cells = execCells S [] t 1 nb.cells := by
    rw [run_all, _execute_ok S nb t hs hf]
  obtain ⟨k, hk, heq, hexec, hstop⟩ := execCells_split S nb.cells [] t 1
  refine ⟨k, hk, by rw [hra, heq], ?_, hstop⟩
  intro j cj hj hcj hcode
  rw [hra]
  exact hexec j cj hj hcj hcode

/-- C2 witness: the timeout scenario of the counterexample instantiates the
amended statement. -/
theorem runAll_timeout_truncation_witness :
    slowSession.startup_ok = true ∧ slowSession.internal_fault = none ∧
    (∃ k, k ≤ staleNb.cells.length ∧
      (run_all slowSession staleNb 5).cells =
        execCells slowSession [] 5 1 (staleNb.cells.take k) ++ staleNb.cells.drop k ∧
      (∀ j cj, j < k → staleNb.cells.get? j = some cj → cj.cell_type = "code" →
        ∃ m outs, (run_all slowSession staleNb 5).cells.get? j =
          some { cj with outputs := outs, execution_count := some m }) ∧
      (k < staleNb.cells.length → ∃ ck, staleNb.cells.get? k = some ck ∧
        ck.cell_type = "code" ∧
        (engBudget slowSession [] 5 (staleNb.cells.take k)).1 <
          slowSession.cost (engBudget slowSession [] 5 (staleNb.cells.take k)).2
            ck.source)) := by
  exact ⟨rfl, rfl, runAll_timeout_truncation slowSession staleNb 5 rfl rfl⟩

/-- C8 counterexample: the first worked example of the claim is wrong.  Two
stream records each become their own entry in `lines`, and the entries are
joined with a newline, so the embedded trailing newline of the first record
is followed by the join newline: the result is the five characters
`a`, newline, newline, `b` (after stripping the final newline), not
`a`, newline, `b`. -/
theorem outputs_to_text_counterexample :
    _outputs_to_text [Output.stream "stdout" (JStr.s "a\n"),
      Output.stream "stdout" (JStr.s "b\n")] = "a\n\nb" ∧
    "a\n\nb" ≠ "a\nb" := by
  decide

/-- C8 amended: each stream record contributes one entry holding its text
(list-form text concatenated), each error record contributes
`ename: evalue` followed by its trace lines, each record with a `data`
mapping contributes its `text/plain` representation when present and is
skipped otherwise; the entries are joined with newlines and the result is
stripped of surrounding whitespace.  On the claim's inputs this yields
`a`, newline, newline, `b` for the two streams, and exactly the claimed
string for the error example. -/
theorem outputs_to_text_spec :
    (∀ os, _outputs_to_text os =
      pyStrip (String.intercalate "\n" (outputLines os))) ∧
    (∀ n tx os, outputLines (Output.stream n tx :: os) =
      jstrText tx :: outputLines os) ∧
    (∀ en ev tb os, outputLines (Output.error en ev tb :: os) =
      (en ++ ": " ++ ev) :: (tb ++ outputLines os)) ∧
    (∀ d os, outputLines (Output.display d :: os) =
      (match d.lookup "text/plain" with
        | some tp => [jstrText tp]
        | none => []) ++ outputLines os) ∧
    _outputs_to_text [Output.stream "stdout" (JStr.s "a\n"),
      Output.stream "stdout" (JStr.s "b\n")] = "a\n\nb" ∧
    _outputs_to_text [Output.error "KeyError" "'x'" ["line1", "line2"]] =
      "KeyError: 'x'\nline1\nline2" := by
  exact ⟨fun os => rfl, fun n tx os => rfl, fun en ev tb os => rfl,
    fun d os => rfl, by decide, by decide⟩

/-- C9: a document whose markdown cells carry no outputs and no execution
count keeps that invariant under both operations: the engine leaves
non-code cells untouched, and the single-cell merge writes back to a
markdown target exactly its untouched empty outputs and absent count. -/
theorem markdown_untouched (S : SessionSpec) (nb : Notebook) (t : Nat)
    (idx : Int) (r : RunCellOk) (hwf : ∀ c ∈ nb.cells, noMdOutputs c) :
    (∀ c ∈ (run_all S nb t).cells, noMdOutputs c) ∧
    (run_cell S nb idx t = .ok r → ∀ c ∈ r.written.cells, noMdOutputs c) := by
  constructor
  · by_cases hS : S.startup_ok = true ∧ S.internal_fault = none
    · rw [run_all, _execute_ok S nb t hS.1 hS.2]
      exact execCells_noMd S nb.cells [] t 1 hwf
    · have hfault : S.startup_ok = false ∨ S.internal_fault ≠ none := by
        rcases not_and_or.mp hS with h | h
        · exact Or.inl (by simpa using h)
        · exact Or.inr h
      rw [run_all, _execute_fault S nb t hfault]
      exact hwf
  · intro h c hc
    unfold run_cell at h
    split at h
    · exact absurd h (by simp)
    · split at h
      · rename_i cell hg
        simp only [Except.ok.injEq] at h
        subst h
        rcases mergeAt_mem nb.cells idx.toNat cell.outputs cell.execution_count
            c hc with hmem | ⟨c0, hc0, hcx⟩
        · exact hwf c hmem
        · subst hcx
          intro hmd
          have hmd0 : c0.cell_type = "markdown" := hmd
          have hcell : cell = c0 := by
            by_cases hS : S.startup_ok = true ∧ S.internal_fault = none
            · rw [_execute_ok S _ t hS.1 hS.2] at hg
              have hg' : (execCells S [] t 1
                  (nb.cells.take (idx.toNat + 1))).get? idx.toNat = some cell := hg
              obtain ⟨c1, hc1, _, _, _, hid⟩ :=
                execCells_get?_shape S _ [] t 1 idx.toNat cell hg'
              rw [List.get?_take (Nat.lt_succ_self idx.toNat), hc0] at hc1
              simp only [Option.some.injEq] at hc1
              subst hc1
              exact hid (by rw [hmd0]; decide)
            · have hfault : S.startup_ok = false ∨ S.internal_fault ≠ none := by
                rcases not_and_or.mp hS with h' | h'
                · exact Or.inl (by simpa using h')
                · exact Or.inr h'
              rw [_execute_fault S _ t hfault] at hg
              have hg' : (nb.cells.take (idx.toNat + 1)).get? idx.toNat =
                  some cell := hg
              rw [List.get?_take (Nat.lt_succ_self idx.toNat), hc0] at hg'
              simp only [Option.some.injEq] at hg'
              exact hg'.symm
          obtain ⟨ho, hcnt⟩ := hwf c0 (List.get?_mem hc0) hmd0
          rw [hcell]
          exact ⟨ho, hcnt⟩
      · exact absurd h (by simp)

/-- C9 witness: the demonstration notebook satisfies the markdown invariant
and keeps it across a full run. -/
theorem markdown_untouched_witness :
    (∀ c ∈ demoNb.cells, noMdOutputs c) ∧
    (∀ c ∈ (run_all demoSession demoNb 10).cells, noMdOutputs c) := by
  refine ⟨by decide, ?_⟩
  exact (markdown_untouched demoSession demoNb 10 2 demoRunCellOk (by decide)).1
